import Mathlib

/-
Verification of the reddit stock-mention analyzer.

Shallow embedding of the repository's data model and operations:
models.py, config.py, stock_analyzer.py, ticker_extractor.py,
reddit_scraper.py, visualizer.py.  External providers (Yahoo Finance,
the Reddit API) are modelled as explicit function parameters; prices are
modelled as rationals; calendar dates as integer day numbers.
-/

namespace RedditStocks

/-- A timestamp: a calendar day number together with a time-of-day
component, mirroring a Python datetime whose date method projects out
the calendar day. -/
structure DateTime where
  date : ℤ
  timeOfDay : ℕ
  deriving DecidableEq

/-- models.py StockMention. -/
structure StockMention where
  ticker : String
  post_id : String
  post_title : String
  post_date : DateTime
  post_score : ℤ
  post_url : String
  author : String
  deriving DecidableEq

/-- models.py StockPerformance; the optional fields default to none as in
the dataclass. -/
structure StockPerformance where
  ticker : String
  post_date : DateTime
  price_at_post : ℚ
  price_1d : Option ℚ := none
  price_3d : Option ℚ := none
  price_1w : Option ℚ := none
  price_2w : Option ℚ := none
  price_1m : Option ℚ := none
  return_1d : Option ℚ := none
  return_3d : Option ℚ := none
  return_1w : Option ℚ := none
  return_2w : Option ℚ := none
  return_1m : Option ℚ := none
  deriving DecidableEq

/-- config.py TIME_PERIODS holds tuples (days, return attribute name,
price attribute name); each tuple is modelled as a tag, with its day
offset and field accessors given by the tag. -/
inductive Period where
  | p1d
  | p3d
  | p1w
  | p2w
  | p1m
  deriving DecidableEq

/-- The day offset of each configured horizon. -/
def Period.days : Period → ℤ
  | .p1d => 1
  | .p3d => 3
  | .p1w => 7
  | .p2w => 14
  | .p1m => 30

/-- config.py TIME_PERIODS, in configuration order. -/
def TIME_PERIODS : List Period := [.p1d, .p3d, .p1w, .p2w, .p1m]

/-- setattr(performance, return_attr, v) for the tuple tagged p. -/
def setReturn (perf : StockPerformance) : Period → ℚ → StockPerformance
  | .p1d, v => { perf with return_1d := some v }
  | .p3d, v => { perf with return_3d := some v }
  | .p1w, v => { perf with return_1w := some v }
  | .p2w, v => { perf with return_2w := some v }
  | .p1m, v => { perf with return_1m := some v }

/-- setattr(performance, price_attr, v) for the tuple tagged p. -/
def setPrice (perf : StockPerformance) : Period → ℚ → StockPerformance
  | .p1d, v => { perf with price_1d := some v }
  | .p3d, v => { perf with price_3d := some v }
  | .p1w, v => { perf with price_1w := some v }
  | .p2w, v => { perf with price_2w := some v }
  | .p1m, v => { perf with price_1m := some v }

/-- The return field selected by a horizon tag. -/
def retField (perf : StockPerformance) : Period → Option ℚ
  | .p1d => perf.return_1d
  | .p3d => perf.return_3d
  | .p1w => perf.return_1w
  | .p2w => perf.return_2w
  | .p1m => perf.return_1m

/-- The price field selected by a horizon tag. -/
def priceField (perf : StockPerformance) : Period → Option ℚ
  | .p1d => perf.price_1d
  | .p3d => perf.price_3d
  | .p1w => perf.price_1w
  | .p2w => perf.price_2w
  | .p1m => perf.price_1m

/-
stock_analyzer.py.  The Yahoo Finance client is a parameter
fetch : ticker → start date → end date → Option price-series, where none
models a raised exception and the series is the (trading date, close)
rows of the returned frame in index order.
-/

/-- StockAnalyzer.get_stock_data: empty data and provider exceptions both
yield None. -/
def get_stock_data (fetch : String → ℤ → ℤ → Option (List (ℤ × ℚ)))
    (ticker : String) (start_date end_date : ℤ) : Option (List (ℤ × ℚ)) :=
  match fetch ticker start_date end_date with
  | none => none
  | some data => if data.isEmpty then none else some data

/-- stock_data.loc[stock_data.index.date == d, 'Close'].iloc[0]: the
close of the first row whose date is d (none models the IndexError on an
empty selection). -/
def closeOn (stock_data : List (ℤ × ℚ)) (d : ℤ) : Option ℚ :=
  (stock_data.find? (fun row => decide (row.1 = d))).map Prod.snd

/-- One step of the closest-date scan: a date below the target is
ignored; otherwise it replaces the best candidate when strictly closer
(the starting min_diff of infinity makes the first qualifying date
always win). -/
def matchStep (target : ℤ) (acc : Option ℤ) (d : ℤ) : Option ℤ :=
  if target ≤ d then
    match acc with
    | none => some d
    | some best => if d - target < best - target then some d else acc
  else acc

/-- The inner loop of calculate_performance that scans available_dates
for the date ≥ target_date with the smallest difference. -/
def closestMatch (dates : List ℤ) (target : ℤ) : Option ℤ :=
  dates.foldl (matchStep target) none

/-- The acceptance test: closest_date found and min_diff ≤ 5. -/
def acceptedMatch (dates : List ℤ) (target : ℤ) : Option ℤ :=
  match closestMatch dates target with
  | none => none
  | some cd => if cd - target ≤ 5 then some cd else none

/-- The close used for one horizon: the accepted matched date's close. -/
def horizonClose (stock_data : List (ℤ × ℚ)) (post_date days : ℤ) : Option ℚ :=
  (acceptedMatch (stock_data.map Prod.fst) (post_date + days)).bind
    (closeOn stock_data)

/-- One iteration of the for days, return_attr, price_attr loop: on an
accepted match set both fields; a failed close lookup is the caught
IndexError that abandons the pair. -/
def applyPeriod (stock_data : List (ℤ × ℚ)) (post_date : ℤ)
    (price_at_post : ℚ) (perf : StockPerformance) (p : Period) :
    Option StockPerformance :=
  match acceptedMatch (stock_data.map Prod.fst) (post_date + p.days) with
  | none => some perf
  | some cd =>
    (closeOn stock_data cd).map fun future_price =>
      setPrice
        (setReturn perf p ((future_price - price_at_post) / price_at_post * 100))
        p future_price

/-- Processing of one surviving mention inside calculate_performance:
fetch the window, pick the anchor date and price, then resolve each
configured horizon; none models every skip path (no data, no anchor, or
a caught exception). -/
def processMention (fetch : String → ℤ → ℤ → Option (List (ℤ × ℚ)))
    (m : StockMention) : Option StockPerformance :=
  let post_date := m.post_date.date
  match get_stock_data fetch m.ticker (post_date - 1) (post_date + 35) with
  | none => none
  | some stock_data =>
    let available_dates := stock_data.map Prod.fst
    match available_dates.find? (fun d => decide (post_date ≤ d)) with
    | none => none
    | some post_price_date =>
      match closeOn stock_data post_price_date with
      | none => none
      | some price_at_post =>
        List.foldlM (applyPeriod stock_data post_date price_at_post)
          { ticker := m.ticker, post_date := m.post_date,
            price_at_post := price_at_post }
          TIME_PERIODS

/-- pair_key = (mention.ticker, mention.post_date.date()). -/
def pairOf (m : StockMention) : String × ℤ :=
  (m.ticker, m.post_date.date)

/-- The (ticker, calendar day) key of an emitted record. -/
def perfPair (perf : StockPerformance) : String × ℤ :=
  (perf.ticker, perf.post_date.date)

/-- The main loop of calculate_performance over the mention list,
carrying the processed_pairs set (the pair is recorded before the fetch,
so even failed pairs are not retried). -/
def calcGo (fetch : String → ℤ → ℤ → Option (List (ℤ × ℚ))) :
    List StockMention → List (String × ℤ) → List StockPerformance
  | [], _ => []
  | m :: rest, processed =>
    if pairOf m ∈ processed then calcGo fetch rest processed
    else
      match processMention fetch m with
      | none => calcGo fetch rest (pairOf m :: processed)
      | some perf => perf :: calcGo fetch rest (pairOf m :: processed)

/-- StockAnalyzer.calculate_performance. -/
def calculate_performance (fetch : String → ℤ → ℤ → Option (List (ℤ × ℚ)))
    (mentions : List StockMention) : List StockPerformance :=
  calcGo fetch mentions []

/-
ticker_extractor.py.  The Yahoo Finance client of validate_ticker is a
Provider giving, per ticker, the keys of the info mapping and the rows
of the trailing 5-day history; err models a raised exception.
-/

/-- A provider response: a value, or a raised exception. -/
inductive ProviderResult (α : Type) where
  | ok (val : α)
  | err
  deriving DecidableEq

/-- The market-data provider consulted by validate_ticker. -/
structure Provider where
  info : String → ProviderResult (List String)
  hist5d : String → ProviderResult (List (ℤ × ℚ))

/-- The recognized metadata fields of validate_ticker. -/
def requiredFields : List String := ["symbol", "longName", "regularMarketPrice"]

/-- TickerExtractor.validate_ticker.  An empty or singleton info mapping
is rejected up front; then at least one recognized field and a non-empty
5-day history are both required; any exception yields False. -/
def validate_ticker (p : Provider) (ticker : String) : Bool :=
  match p.info ticker with
  | .err => false
  | .ok info =>
    if info.length ≤ 1 then false
    else
      let has_required := requiredFields.any (fun f => info.contains f)
      match p.hist5d ticker with
      | .err => false
      | .ok hist => has_required && !hist.isEmpty

/-- The character class [A-Z] of the ticker pattern. -/
def isUpperAlpha (c : Char) : Bool := decide ('A' ≤ c ∧ c ≤ 'Z')

/-- The regex word class (ASCII model of \x5cw). -/
def isWordChar (c : Char) : Bool := c.isAlphanum || decide (c = '_')

/-- A word boundary holds after the match when the remaining text is
empty or starts with a non-word character. -/
def boundaryAt : List Char → Bool
  | [] => true
  | c :: _ => !(isWordChar c)

/-- Match exactly n uppercase letters followed by a word boundary,
returning the letters and the remaining text. -/
def tryLen : ℕ → List Char → Option (List Char × List Char)
  | 0, cs => if boundaryAt cs then some ([], cs) else none
  | _ + 1, [] => none
  | n + 1, c :: cs =>
    if isUpperAlpha c then (tryLen n cs).map (fun pr => (c :: pr.1, pr.2))
    else none

/-- The greedy quantifier of ([A-Z]\x7b1,5\x7d) right after a dollar
sign: longest length first, backtracking down to one letter. -/
def matchAtDollar (cs : List Char) : Option (List Char × List Char) :=
  (tryLen 5 cs).orElse fun _ =>
    (tryLen 4 cs).orElse fun _ =>
      (tryLen 3 cs).orElse fun _ =>
        (tryLen 2 cs).orElse fun _ => tryLen 1 cs

/-- The scan of re.findall over the text, resuming after each match.
The fuel argument only bounds the recursion; a fuel of at least the text
length never runs out, since every step consumes a character. -/
def findallAux : ℕ → List Char → List String
  | 0, _ => []
  | _ + 1, [] => []
  | fuel + 1, c :: cs =>
    if c = '$' then
      match matchAtDollar cs with
      | some pr => String.mk pr.1 :: findallAux fuel pr.2
      | none => findallAux fuel cs
    else findallAux fuel cs

/-- dollar_ticker_pattern.findall. -/
def findall (cs : List Char) : List String :=
  findallAux cs.length cs

/-- TickerExtractor.extract_tickers_from_text, returning the validated
tickers together with the number of validation calls made. -/
def extract_tickers_from_text (p : Provider) (text : String) :
    List String × ℕ :=
  let dollar_tickers := findall (text.toList.map Char.toUpper)
  if dollar_tickers.isEmpty then ([], 0)
  else
    let unique_tickers := dollar_tickers.dedup
    (unique_tickers.filter (validate_ticker p), unique_tickers.length)

/-
reddit_scraper.py.  The praw subreddit is modelled by the post lists its
four sort generators yield; limit is a take.
-/

/-- A raw reddit post as exposed to fetch_posts. -/
structure RawPost where
  id : String
  title : String
  selftext : String
  created_utc : ℤ
  score : ℤ
  permalink : String
  author : Option String

/-- The subreddit's four sort generators. -/
structure Subreddit where
  hot : List RawPost
  new : List RawPost
  rising : List RawPost
  top : String → List RawPost

/-- datetime.fromtimestamp on epoch seconds. -/
def fromtimestamp (ts : ℤ) : DateTime :=
  { date := ts / 86400, timeOfDay := (ts % 86400).toNat }

/-- The per-post body of the fetch_posts loop: extract tickers and build
one StockMention per ticker (posts without tickers are skipped). -/
def mentionsOfPost (p : Provider) (use_title_only : Bool)
    (post : RawPost) : List StockMention :=
  let text_to_analyze :=
    if use_title_only then post.title
    else post.title ++ " " ++ post.selftext
  let tickers := (extract_tickers_from_text p text_to_analyze).1
  tickers.map fun ticker =>
    { ticker := ticker
      post_id := post.id
      post_title := post.title
      post_date := fromtimestamp post.created_utc
      post_score := post.score
      post_url := "https://reddit.com" ++ post.permalink
      author := match post.author with
        | some a => a
        | none => "deleted" }

/-- RedditScraper.fetch_posts: pick the generator by sort_by, raising
ValueError for anything outside hot, new, rising, top. -/
def fetch_posts (p : Provider) (sub : Subreddit) (limit : ℕ)
    (use_title_only : Bool) (sort_by : String) (time_filter : String) :
    Except String (List StockMention) :=
  if sort_by = "hot" then
    .ok ((sub.hot.take limit).map (mentionsOfPost p use_title_only)).flatten
  else if sort_by = "new" then
    .ok ((sub.new.take limit).map (mentionsOfPost p use_title_only)).flatten
  else if sort_by = "rising" then
    .ok ((sub.rising.take limit).map (mentionsOfPost p use_title_only)).flatten
  else if sort_by = "top" then
    .ok (((sub.top time_filter).take limit).map
      (mentionsOfPost p use_title_only)).flatten
  else
    .error ("Invalid sort option: " ++ sort_by)

/-
visualizer.py : analyze_profitability over the persisted rows.
-/

/-- A stock_performance row as read back for reporting, in column
order. -/
structure PerfRow where
  id : ℤ
  ticker : String
  post_date : String
  price_at_post : ℚ
  price_1d : Option ℚ
  price_3d : Option ℚ
  price_1w : Option ℚ
  price_2w : Option ℚ
  price_1m : Option ℚ
  return_1d : Option ℚ
  return_3d : Option ℚ
  return_1w : Option ℚ
  return_2w : Option ℚ
  return_1m : Option ℚ
  deriving DecidableEq

/-- The return column selected by a horizon tag. -/
def returnCol (r : PerfRow) : Period → Option ℚ
  | .p1d => r.return_1d
  | .p3d => r.return_3d
  | .p1w => r.return_1w
  | .p2w => r.return_2w
  | .p1m => r.return_1m

/-- pandas dropna on a column. -/
def dropna (col : List (Option ℚ)) : List ℚ :=
  col.filterMap id

/-- pandas median: middle of the sorted data, or the mean of the two
middles. -/
def medianOf (valid : List ℚ) : ℚ :=
  let s := valid.insertionSort (fun a b => a ≤ b)
  let n := s.length
  if n % 2 = 1 then s.getD (n / 2) 0
  else (s.getD (n / 2 - 1) 0 + s.getD (n / 2) 0) / 2

/-- max of a non-empty column (0 on the empty column, which the caller
guards against). -/
def maxOf (valid : List ℚ) : ℚ := valid.foldl max (valid.headD 0)

/-- min of a non-empty column. -/
def minOf (valid : List ℚ) : ℚ := valid.foldl min (valid.headD 0)

/-- The statistics computed per period by analyze_profitability (the
standard deviation, being an irrational summary the claims never touch,
is not carried). -/
structure PeriodStats where
  count : ℕ
  mean_return : ℚ
  median_return : ℚ
  positive_returns : ℕ
  negative_returns : ℕ
  win_rate : ℚ
  best_return : ℚ
  worst_return : ℚ
  returns_over_10pct : ℕ
  returns_over_25pct : ℕ
  returns_under_minus10pct : ℕ
  deriving DecidableEq

/-- The statistics of one period's non-null returns. -/
def periodStats (valid : List ℚ) : PeriodStats :=
  { count := valid.length
    mean_return := valid.sum / (valid.length : ℚ)
    median_return := medianOf valid
    positive_returns := (valid.filter (fun r => decide (0 < r))).length
    negative_returns := (valid.filter (fun r => decide (r < 0))).length
    win_rate :=
      ((valid.filter (fun r => decide (0 < r))).length : ℚ)
        / (valid.length : ℚ) * 100
    best_return := maxOf valid
    worst_return := minOf valid
    returns_over_10pct := (valid.filter (fun r => decide (10 < r))).length
    returns_over_25pct := (valid.filter (fun r => decide (25 < r))).length
    returns_under_minus10pct :=
      (valid.filter (fun r => decide (r < -10))).length }

/-- Visualizer.analyze_profitability: none is the error result on empty
data; per period, the statistics over the non-null returns, omitted when
no row has one. -/
def analyze_profitability (data : List PerfRow) :
    Option (ℕ × (Period → Option PeriodStats)) :=
  if data.isEmpty then none
  else
    some (data.length, fun p =>
      let valid := dropna (data.map (fun r => returnCol r p))
      if valid.isEmpty then none else some (periodStats valid))

/-- A dollar-prefixed ticker-shaped occurrence: somewhere in the text a
dollar sign is followed by one to five uppercase letters and a word
boundary. -/
def tickerShaped (cs : List Char) : Prop :=
  ∃ pre t rest, cs = pre ++ '$' :: (t ++ rest) ∧ t ≠ [] ∧ t.length ≤ 5 ∧
    (∀ c ∈ t, isUpperAlpha c = true) ∧ boundaryAt rest = true

/-
Concrete instances used to exercise the theorems.
-/

/-- A provider window with a single trading day. -/
def fetchOneDay : String → ℤ → ℤ → Option (List (ℤ × ℚ)) :=
  fun _ _ _ => some [(0, 10)]

/-- A provider window holding the post day at 10.00 and the next day at
11.50. -/
def fetchTwoDays : String → ℤ → ℤ → Option (List (ℤ × ℚ)) :=
  fun _ _ _ => some [(0, 10), (1, 23 / 2)]

/-- A provider window whose trading days all precede day 2. -/
def fetchPastDays : String → ℤ → ℤ → Option (List (ℤ × ℚ)) :=
  fun _ _ _ => some [(-1, 9), (0, 10)]

/-- A mention of AB posted on day 0 at second 100. -/
def mAB1 : StockMention :=
  { ticker := "AB"
    post_id := "p1"
    post_title := "t1"
    post_date := { date := 0, timeOfDay := 100 }
    post_score := 1
    post_url := "u1"
    author := "a1" }

/-- A second mention of AB on the same calendar day, later in the day. -/
def mAB2 : StockMention :=
  { ticker := "AB"
    post_id := "p2"
    post_title := "t2"
    post_date := { date := 0, timeOfDay := 200 }
    post_score := 2
    post_url := "u2"
    author := "a2" }

/-- A mention of CD posted on day 2, past every fetchPastDays date. -/
def mCD : StockMention :=
  { ticker := "CD"
    post_id := "p3"
    post_title := "t3"
    post_date := { date := 2, timeOfDay := 0 }
    post_score := 3
    post_url := "u3"
    author := "a3" }

/-- The record for mAB1 under fetchOneDay: anchored at 10, with no
horizon resolvable. -/
def perfAB : StockPerformance :=
  { ticker := "AB"
    post_date := { date := 0, timeOfDay := 100 }
    price_at_post := 10 }

/-- The record for mAB1 under fetchTwoDays: the one-day horizon matches
day 1 at 11.50, a gain of exactly 15 percent. -/
def perfAB2 : StockPerformance :=
  { ticker := "AB"
    post_date := { date := 0, timeOfDay := 100 }
    price_at_post := 10
    price_1d := some (23 / 2)
    return_1d := some 15 }

/-- Reporting rows whose one-day returns are 5, -5, 15, -15 and 25. -/
def rowsR : List PerfRow :=
  [5, -5, 15, -15, 25].map fun (r : ℚ) =>
    { id := 1
      ticker := "A"
      post_date := "2024-01-01"
      price_at_post := 1
      price_1d := none
      price_3d := none
      price_1w := none
      price_2w := none
      price_1m := none
      return_1d := some r
      return_3d := none
      return_1w := none
      return_2w := none
      return_1m := none }

/-- A provider whose metadata is the single recognized key symbol and
whose 5-day history is non-empty. -/
def providerThin : Provider :=
  { info := fun _ => .ok ["symbol"]
    hist5d := fun _ => .ok [(0, 1)] }

/-- A provider with rich metadata and a non-empty 5-day history. -/
def providerRich : Provider :=
  { info := fun _ => .ok ["symbol", "longName"]
    hist5d := fun _ => .ok [(0, 1)] }

/-- A provider that raises on every query. -/
def providerDown : Provider :=
  { info := fun _ => .err
    hist5d := fun _ => .err }

/-- A subreddit with no posts under any sort. -/
def subEmpty : Subreddit :=
  { hot := []
    new := []
    rising := []
    top := fun _ => [] }

/-
Structural lemmas about the horizon fields.
-/

@[simp]
lemma retField_setReturn (perf : StockPerformance) (p q : Period) (v : ℚ) :
    retField (setReturn perf p v) q = if q = p then some v else retField perf q := by
  cases p <;> cases q <;> simp [setReturn, retField]

@[simp]
lemma retField_setPrice (perf : StockPerformance) (p q : Period) (v : ℚ) :
    retField (setPrice perf p v) q = retField perf q := by
  cases p <;> cases q <;> simp [setPrice, retField]

@[simp]
lemma priceField_setPrice (perf : StockPerformance) (p q : Period) (v : ℚ) :
    priceField (setPrice perf p v) q =
      if q = p then some v else priceField perf q := by
  cases p <;> cases q <;> simp [setPrice, priceField]

@[simp]
lemma priceField_setReturn (perf : StockPerformance) (p q : Period) (v : ℚ) :
    priceField (setReturn perf p v) q = priceField perf q := by
  cases p <;> cases q <;> simp [setReturn, priceField]

@[simp]
lemma setReturn_ticker (perf : StockPerformance) (p : Period) (v : ℚ) :
    (setReturn perf p v).ticker = perf.ticker := by
  cases p <;> rfl

@[simp]
lemma setReturn_post_date (perf : StockPerformance) (p : Period) (v : ℚ) :
    (setReturn perf p v).post_date = perf.post_date := by
  cases p <;> rfl

@[simp]
lemma setReturn_price_at_post (perf : StockPerformance) (p : Period) (v : ℚ) :
    (setReturn perf p v).price_at_post = perf.price_at_post := by
  cases p <;> rfl

@[simp]
lemma setPrice_ticker (perf : StockPerformance) (p : Period) (v : ℚ) :
    (setPrice perf p v).ticker = perf.ticker := by
  cases p <;> rfl

@[simp]
lemma setPrice_post_date (perf : StockPerformance) (p : Period) (v : ℚ) :
    (setPrice perf p v).post_date = perf.post_date := by
  cases p <;> rfl

@[simp]
lemma setPrice_price_at_post (perf : StockPerformance) (p : Period) (v : ℚ) :
    (setPrice perf p v).price_at_post = perf.price_at_post := by
  cases p <;> rfl

/-- Case analysis of one horizon iteration that returned a record. -/
lemma applyPeriod_eq_some {sd : List (ℤ × ℚ)} {pd : ℤ} {pr : ℚ}
    {perf perf2 : StockPerformance} {p : Period}
    (h : applyPeriod sd pd pr perf p = some perf2) :
    (acceptedMatch (sd.map Prod.fst) (pd + p.days) = none ∧ perf2 = perf) ∨
    ∃ cd fp, acceptedMatch (sd.map Prod.fst) (pd + p.days) = some cd ∧
      closeOn sd cd = some fp ∧
      perf2 = setPrice (setReturn perf p ((fp - pr) / pr * 100)) p fp := by
  unfold applyPeriod at h
  split at h
  · rename_i ham
    injection h with h
    exact Or.inl ⟨ham, h.symm⟩
  · rename_i cd ham
    cases hco : closeOn sd cd with
    | none => rw [hco] at h; cases h
    | some fp =>
      rw [hco] at h
      simp only [Option.map_some', Option.some.injEq] at h
      exact Or.inr ⟨cd, fp, ham, hco, h.symm⟩

/-- Characterization of the horizon loop: after a successful pass over a
duplicate-free list of horizons whose fields start unset, each processed
horizon's price field holds the accepted close and its return field the
percentage return, untouched horizons and the header fields are
preserved. -/
lemma foldPeriods_spec (sd : List (ℤ × ℚ)) (pd : ℤ) (pr : ℚ) :
    ∀ (l : List Period) (perf0 perf : StockPerformance),
      l.Nodup →
      (∀ p ∈ l, retField perf0 p = none ∧ priceField perf0 p = none) →
      List.foldlM (applyPeriod sd pd pr) perf0 l = some perf →
      perf.ticker = perf0.ticker ∧ perf.post_date = perf0.post_date ∧
      perf.price_at_post = perf0.price_at_post ∧
      (∀ p ∈ l, priceField perf p = horizonClose sd pd p.days ∧
        retField perf p = (horizonClose sd pd p.days).map
          (fun fp => (fp - pr) / pr * 100)) ∧
      (∀ p, p ∉ l → retField perf p = retField perf0 p ∧
        priceField perf p = priceField perf0 p) := by
  intro l
  induction l with
  | nil =>
    intro perf0 perf _ _ h
    simp only [List.foldlM_nil, Option.pure_def, Option.some.injEq] at h
    subst h
    simp
  | cons q rest ih =>
    intro perf0 perf hnd h0 h
    rw [List.foldlM_cons] at h
    obtain ⟨perf1, h1, h2⟩ := Option.bind_eq_some.mp h
    have hq : q ∉ rest := (List.nodup_cons.mp hnd).1
    have hndr : rest.Nodup := (List.nodup_cons.mp hnd).2
    rcases applyPeriod_eq_some h1 with ⟨ham, heq⟩ | ⟨cd, fp, ham, hco, heq⟩
    · rw [heq] at h2
      have h0r : ∀ p ∈ rest, retField perf0 p = none ∧ priceField perf0 p = none :=
        fun p hp => h0 p (List.mem_cons_of_mem _ hp)
      obtain ⟨ht, hpd, hpr, hmem, hnot⟩ := ih perf0 perf hndr h0r h2
      have hcl : horizonClose sd pd q.days = none := by
        simp [horizonClose, ham]
      refine ⟨ht, hpd, hpr, ?_, ?_⟩
      · intro p hp
        rcases List.mem_cons.mp hp with rfl | hp
        · constructor
          · rw [(hnot p hq).2, (h0 p (List.mem_cons_self _ _)).2, hcl]
          · rw [(hnot p hq).1, (h0 p (List.mem_cons_self _ _)).1, hcl]
            rfl
        · exact hmem p hp
      · intro p hp
        exact hnot p (fun hr => hp (List.mem_cons_of_mem _ hr))
    · rw [heq] at h2
      have h0r : ∀ p ∈ rest, retField
          (setPrice (setReturn perf0 q ((fp - pr) / pr * 100)) q fp) p = none ∧
          priceField
            (setPrice (setReturn perf0 q ((fp - pr) / pr * 100)) q fp) p = none := by
        intro p hp
        have hne : p ≠ q := fun hpq => hq (hpq ▸ hp)
        simp only [retField_setPrice, retField_setReturn,
          priceField_setPrice, priceField_setReturn, if_neg hne]
        exact h0 p (List.mem_cons_of_mem _ hp)
      obtain ⟨ht, hpd, hpr, hmem, hnot⟩ := ih _ perf hndr h0r h2
      have hcl : horizonClose sd pd q.days = some fp := by
        simp [horizonClose, ham, hco]
      refine ⟨by simp [ht], by simp [hpd], by simp [hpr], ?_, ?_⟩
      · intro p hp
        rcases List.mem_cons.mp hp with rfl | hp
        · have h3 := hnot p hq
          rw [hcl, h3.1, h3.2]
          simp
        · exact hmem p hp
      · intro p hp
        have hne : p ≠ q := fun hpq => hp (hpq ▸ List.mem_cons_self _ _)
        have h3 := hnot p (fun hr => hp (List.mem_cons_of_mem _ hr))
        rw [h3.1, h3.2]
        simp [if_neg hne]

/-- Full characterization of processing one surviving mention: a record
comes from a non-empty fetched window, carries the close of the first
available date on or after the post day as its anchor price, preserves
the mention's ticker and full timestamp, and holds in each horizon's
field pair exactly the accepted close and its percentage return. -/
lemma processMention_spec {fetch : String → ℤ → ℤ → Option (List (ℤ × ℚ))}
    {m : StockMention} {perf : StockPerformance}
    (h : processMention fetch m = some perf) :
    ∃ stock_data anchor price,
      get_stock_data fetch m.ticker (m.post_date.date - 1)
        (m.post_date.date + 35) = some stock_data ∧
      (stock_data.map Prod.fst).find?
        (fun d => decide (m.post_date.date ≤ d)) = some anchor ∧
      closeOn stock_data anchor = some price ∧
      perf.ticker = m.ticker ∧ perf.post_date = m.post_date ∧
      perf.price_at_post = price ∧
      ∀ p : Period,
        priceField perf p = horizonClose stock_data m.post_date.date p.days ∧
        retField perf p =
          (horizonClose stock_data m.post_date.date p.days).map
            (fun fp => (fp - price) / price * 100) := by
  unfold processMention at h
  dsimp only at h
  split at h
  · cases h
  · rename_i stock_data hsd
    split at h
    · cases h
    · rename_i anchor hanchor
      split at h
      · cases h
      · rename_i price hprice
        have hnd : TIME_PERIODS.Nodup := by decide
        have h0 : ∀ p ∈ TIME_PERIODS,
            retField
              { ticker := m.ticker
                post_date := m.post_date
                price_at_post := price } p = none ∧
            priceField
              { ticker := m.ticker
                post_date := m.post_date
                price_at_post := price } p = none := by
          intro p _
          cases p <;> exact ⟨rfl, rfl⟩
        obtain ⟨ht, hpd, hpr, hmem, _⟩ :=
          foldPeriods_spec stock_data m.post_date.date price
            TIME_PERIODS _ perf hnd h0 h
        exact ⟨stock_data, anchor, price, hsd, hanchor, hprice, ht, hpd, hpr,
          fun p => hmem p (by cases p <;> decide)⟩

/-
Properties of the closest-date scan.
-/

/-- A step result on a seed on or after the target stays on or after the
target. -/
lemma matchStep_ge (target : ℤ) (acc : Option ℤ) (f v : ℤ)
    (hinv : ∀ b, acc = some b → target ≤ b)
    (h : matchStep target acc f = some v) : target ≤ v := by
  unfold matchStep at h
  split at h
  · rename_i htf
    cases acc with
    | none => injection h with h; omega
    | some best =>
      simp only at h
      split at h
      · injection h with h; omega
      · exact hinv v h
  · exact hinv v h

/-- A step result is the scanned date or the seed. -/
lemma matchStep_mem (target : ℤ) (acc : Option ℤ) (f v : ℤ)
    (h : matchStep target acc f = some v) : v = f ∨ acc = some v := by
  unfold matchStep at h
  split at h
  · cases acc with
    | none => injection h with h; exact Or.inl h.symm
    | some best =>
      simp only at h
      split at h
      · injection h with h; exact Or.inl h.symm
      · exact Or.inr h
  · exact Or.inr h

/-- On a qualifying date the step always leaves a candidate at most that
far from the target. -/
lemma matchStep_bound (target : ℤ) (acc : Option ℤ) (f : ℤ)
    (htf : target ≤ f) :
    ∃ v, matchStep target acc f = some v ∧ v - target ≤ f - target := by
  unfold matchStep
  rw [if_pos htf]
  cases acc with
  | none => exact ⟨f, rfl, by omega⟩
  | some best =>
    by_cases hlt : f - target < best - target
    · exact ⟨f, by simp [hlt], by omega⟩
    · exact ⟨best, by simp [hlt], by omega⟩

/-- The step keeps the seed, or strictly improves on it. -/
lemma matchStep_seed (target b f : ℤ) :
    matchStep target (some b) f = some b ∨
    (matchStep target (some b) f = some f ∧ f - target < b - target) := by
  unfold matchStep
  split
  · by_cases hlt : f - target < b - target
    · exact Or.inr ⟨by simp [hlt], hlt⟩
    · exact Or.inl (by simp [hlt])
  · exact Or.inl rfl

/-- Invariant-carrying induction over the closest-date fold: a result is
on or after the target, comes from the scanned list (or the seed), and
has the least difference among qualifying scanned dates and the seed. -/
lemma closestMatch_aux (target : ℤ) :
    ∀ (l : List ℤ) (acc : Option ℤ) (d : ℤ),
      (∀ b, acc = some b → target ≤ b) →
      l.foldl (matchStep target) acc = some d →
      target ≤ d ∧ (d ∈ l ∨ acc = some d) ∧
      (∀ e ∈ l, target ≤ e → d - target ≤ e - target) ∧
      (∀ b, acc = some b → d - target ≤ b - target) := by
  intro l
  induction l with
  | nil =>
    intro acc d hinv h
    simp only [List.foldl_nil] at h
    refine ⟨hinv d h, Or.inr h, by simp, ?_⟩
    intro b hb
    rw [h] at hb
    injection hb with hb
    omega
  | cons f rest ih =>
    intro acc d hinv h
    rw [List.foldl_cons] at h
    have hinv2 : ∀ b, matchStep target acc f = some b → target ≤ b :=
      fun b hb => matchStep_ge target acc f b hinv hb
    obtain ⟨hd, hmem, hmin, hacc⟩ := ih (matchStep target acc f) d hinv2 h
    refine ⟨hd, ?_, ?_, ?_⟩
    · rcases hmem with hm | hm
      · exact Or.inl (List.mem_cons_of_mem _ hm)
      · rcases matchStep_mem target acc f d hm with rfl | hm2
        · exact Or.inl (List.mem_cons_self _ _)
        · exact Or.inr hm2
    · intro e he hte
      rcases List.mem_cons.mp he with rfl | he
      · obtain ⟨v, hv, hvf⟩ := matchStep_bound target acc e hte
        have := hacc v hv
        omega
      · exact hmin e he hte
    · intro b hb
      rcases matchStep_seed target b f with hs | ⟨hs, hlt⟩
      · exact hacc b (by rw [hb]; exact hs)
      · have := hacc f (by rw [hb]; exact hs)
        omega

/-- The closest-match loop starting from no candidate: a result is a
scanned date on or after the target with the least difference among
qualifying dates. -/
lemma closestMatch_spec {dates : List ℤ} {target d : ℤ}
    (h : closestMatch dates target = some d) :
    d ∈ dates ∧ target ≤ d ∧
      ∀ e ∈ dates, target ≤ e → d - target ≤ e - target := by
  obtain ⟨hd, hmem, hmin, _⟩ :=
    closestMatch_aux target dates none d (by intro b hb; cases hb) h
  rcases hmem with hm | hm
  · exact ⟨hm, hd, hmin⟩
  · cases hm

/-- The acceptance test passes exactly for a closest match within the
5-day tolerance. -/
lemma acceptedMatch_iff (dates : List ℤ) (target d : ℤ) :
    acceptedMatch dates target = some d ↔
      closestMatch dates target = some d ∧ d - target ≤ 5 := by
  unfold acceptedMatch
  cases h : closestMatch dates target with
  | none =>
    dsimp only
    constructor
    · intro he; cases he
    · rintro ⟨he, _⟩; cases he
  | some cd =>
    dsimp only
    by_cases h5 : cd - target ≤ 5
    · rw [if_pos h5]
      constructor
      · intro he
        injection he with he
        subst he
        exact ⟨rfl, h5⟩
      · rintro ⟨he, _⟩
        exact he
    · rw [if_neg h5]
      constructor
      · intro he; cases he
      · rintro ⟨he, hd5⟩
        injection he with he
        subst he
        exact absurd hd5 h5

/-- C1: for every horizon target, the closest-match scan of
calculate_performance only returns a trading date on or after the target
with the minimal difference among trading dates on or after the target,
the match is accepted exactly when that difference is at most 5 calendar
days (so a 6-day difference is rejected and the horizon stays unset),
and the configured horizon offsets are 1, 3, 7, 14 and 30 days. -/
theorem horizon_alignment_correct (dates : List ℤ) (target : ℤ) :
    (∀ d, closestMatch dates target = some d →
      d ∈ dates ∧ target ≤ d ∧
        ∀ e ∈ dates, target ≤ e → d - target ≤ e - target) ∧
    (∀ d, acceptedMatch dates target = some d ↔
      closestMatch dates target = some d ∧ d - target ≤ 5) ∧
    TIME_PERIODS.map Period.days = [1, 3, 7, 14, 30] :=
  ⟨fun _ h => closestMatch_spec h,
   fun d => acceptedMatch_iff dates target d,
   by decide⟩

/-- Concrete instance of C1: on the calendar [3, 10] with target 4 the
match is 10; a 6-day gap past the target (calendar [16], target 10) is
rejected while a 5-day gap is accepted. -/
theorem horizon_alignment_instance :
    (acceptedMatch [3, 10] 4 = some 10 ↔
      closestMatch [3, 10] 4 = some 10 ∧ (10 : ℤ) - 4 ≤ 5) ∧
    acceptedMatch [16] 10 = none ∧ acceptedMatch [15] 10 = some 15 :=
  ⟨(horizon_alignment_correct [3, 10] 4).2.1 10, by decide, by decide⟩

/-
The dedup loop of calculate_performance.
-/

/-- An emitted record keys to its mention's (ticker, day) pair. -/
lemma processMention_pair {fetch : String → ℤ → ℤ → Option (List (ℤ × ℚ))}
    {m : StockMention} {perf : StockPerformance}
    (h : processMention fetch m = some perf) : perfPair perf = pairOf m := by
  obtain ⟨sd, a, pr, _, _, _, ht, hpd, _⟩ := processMention_spec h
  unfold perfPair pairOf
  rw [ht, hpd]

/-- Every record of the main loop comes from processing some input
mention. -/
lemma calcGo_mem (fetch : String → ℤ → ℤ → Option (List (ℤ × ℚ))) :
    ∀ (ms : List StockMention) (processed : List (String × ℤ))
      (perf : StockPerformance), perf ∈ calcGo fetch ms processed →
      ∃ m ∈ ms, processMention fetch m = some perf := by
  intro ms
  induction ms with
  | nil =>
    intro processed perf h
    cases h
  | cons m rest ih =>
    intro processed perf h
    simp only [calcGo] at h
    split at h
    · obtain ⟨m2, hm2, hp2⟩ := ih _ perf h
      exact ⟨m2, List.mem_cons_of_mem _ hm2, hp2⟩
    · cases hpm : processMention fetch m with
      | none =>
        rw [hpm] at h
        obtain ⟨m2, hm2, hp2⟩ := ih _ perf h
        exact ⟨m2, List.mem_cons_of_mem _ hm2, hp2⟩
      | some perf2 =>
        rw [hpm] at h
        rcases List.mem_cons.mp h with rfl | h2
        · exact ⟨m, List.mem_cons_self _ _, hpm⟩
        · obtain ⟨m2, hm2, hp2⟩ := ih _ perf h2
          exact ⟨m2, List.mem_cons_of_mem _ hm2, hp2⟩

/-- Once a pair is in processed_pairs, the loop emits no record keyed to
it. -/
lemma calcGo_filter_processed (fetch : String → ℤ → ℤ → Option (List (ℤ × ℚ)))
    (t : String) (d : ℤ) :
    ∀ (ms : List StockMention) (processed : List (String × ℤ)),
      (t, d) ∈ processed →
      (calcGo fetch ms processed).filter
        (fun q => decide (perfPair q = (t, d))) = [] := by
  intro ms
  induction ms with
  | nil => intro processed _; rfl
  | cons m rest ih =>
    intro processed hp
    simp only [calcGo]
    split
    · exact ih processed hp
    · rename_i hnotin
      cases hpm : processMention fetch m with
      | none => exact ih _ (List.mem_cons_of_mem _ hp)
      | some perf =>
        have hne : ¬ perfPair perf = (t, d) := by
          rw [processMention_pair hpm]
          intro he
          exact hnotin (he ▸ hp)
        rw [List.filter_cons]
        simp only [hne, decide_False, if_false]
        exact ih _ (List.mem_cons_of_mem _ hp)

/-- The records keyed to a pair not yet processed are exactly the result
of processing the first input mention with that pair. -/
lemma calcGo_filter_first (fetch : String → ℤ → ℤ → Option (List (ℤ × ℚ)))
    (t : String) (d : ℤ) :
    ∀ (ms : List StockMention) (processed : List (String × ℤ))
      (m0 : StockMention),
      (t, d) ∉ processed →
      ms.find? (fun m => decide (pairOf m = (t, d))) = some m0 →
      (calcGo fetch ms processed).filter
        (fun q => decide (perfPair q = (t, d))) =
        (processMention fetch m0).toList := by
  intro ms
  induction ms with
  | nil =>
    intro processed m0 _ hf
    cases hf
  | cons m rest ih =>
    intro processed m0 hnp hf
    by_cases hpair : pairOf m = (t, d)
    · have hm0 : m0 = m := by
        rw [List.find?_cons_of_pos _ (by simp [hpair])] at hf
        injection hf with hf
        exact hf.symm
      subst hm0
      simp only [calcGo]
      rw [if_neg (fun hc => hnp (hpair ▸ hc))]
      cases hpm : processMention fetch m0 with
      | none =>
        simpa using calcGo_filter_processed fetch t d rest (pairOf m0 :: processed)
          (by rw [hpair]; exact List.mem_cons_self _ _)
      | some perf =>
        have hpp : perfPair perf = (t, d) := by
          rw [processMention_pair hpm, hpair]
        rw [List.filter_cons]
        simp only [hpp, decide_True, if_true]
        rw [calcGo_filter_processed fetch t d rest (pairOf m0 :: processed)
          (by rw [hpair]; exact List.mem_cons_self _ _)]
        rfl
    · have hf2 : rest.find? (fun m => decide (pairOf m = (t, d))) = some m0 := by
        rw [List.find?_cons_of_neg _ (by simp [hpair])] at hf
        exact hf
      have hnp2 : (t, d) ∉ pairOf m :: processed := by
        intro hc
        rcases List.mem_cons.mp hc with he | hc2
        · exact hpair he.symm
        · exact hnp hc2
      simp only [calcGo]
      split
      · exact ih processed m0 hnp hf2
      · cases hpm : processMention fetch m with
        | none => exact ih _ m0 hnp2 hf2
        | some perf =>
          have hne : ¬ perfPair perf = (t, d) := by
            rw [processMention_pair hpm]
            exact hpair
          rw [List.filter_cons]
          simp only [hne, decide_False, if_false]
          exact ih _ m0 hnp2 hf2

/-- C2: when a (ticker, calendar day) pair occurs at least twice in the
input mention list and its first occurrence is processable, exactly one
Performance record keyed to the pair is produced, and it carries the
first occurrence's full timestamp, time-of-day included; later mentions
of the pair are skipped. -/
theorem dedup_single_record
    (fetch : String → ℤ → ℤ → Option (List (ℤ × ℚ)))
    (mentions : List StockMention) (t : String) (d : ℤ)
    (m0 : StockMention) (perf : StockPerformance)
    (hmulti : 2 ≤ (mentions.filter (fun m => decide (pairOf m = (t, d)))).length)
    (hfirst : mentions.find? (fun m => decide (pairOf m = (t, d))) = some m0)
    (hproc : processMention fetch m0 = some perf) :
    (calculate_performance fetch mentions).filter
      (fun q => decide (perfPair q = (t, d))) = [perf] ∧
    perf.post_date = m0.post_date := by
  constructor
  · rw [calculate_performance,
      calcGo_filter_first fetch t d mentions [] m0 (by simp) hfirst, hproc]
    rfl
  · obtain ⟨sd, a, pr, _, _, _, _, hpd, _⟩ := processMention_spec hproc
    exact hpd

/-- Concrete instance of C2: two same-day AB mentions collapse to a
single record stamped with the first mention's timestamp. -/
theorem dedup_single_record_instance :
    (calculate_performance fetchOneDay [mAB1, mAB2]).filter
      (fun q => decide (perfPair q = ("AB", 0))) = [perfAB] ∧
    perfAB.post_date = mAB1.post_date :=
  dedup_single_record fetchOneDay [mAB1, mAB2] "AB" 0 mAB1 perfAB
    (by decide) (by decide) (by decide)

/-- C4: on every record, each horizon's price is the accepted matched
close and each horizon's return is exactly (price - anchor) / anchor
times 100, with no rounding of the stored value. -/
theorem return_formula_exact
    (fetch : String → ℤ → ℤ → Option (List (ℤ × ℚ)))
    (m : StockMention) (perf : StockPerformance)
    (h : processMention fetch m = some perf) :
    ∃ stock_data,
      get_stock_data fetch m.ticker (m.post_date.date - 1)
        (m.post_date.date + 35) = some stock_data ∧
      ∀ p : Period,
        priceField perf p = horizonClose stock_data m.post_date.date p.days ∧
        retField perf p = (priceField perf p).map
          (fun fp => (fp - perf.price_at_post) / perf.price_at_post * 100) := by
  obtain ⟨sd, a, pr, hf, _, _, _, _, hpr, hps⟩ := processMention_spec h
  refine ⟨sd, hf, fun p => ⟨(hps p).1, ?_⟩⟩
  rw [(hps p).2, (hps p).1, hpr]

/-- Concrete instance of C4: anchor 10.00 and matched close 11.50 store
a return of exactly +15. -/
theorem return_formula_instance :
    processMention fetchTwoDays mAB1 = some perfAB2 ∧
    perfAB2.return_1d = (perfAB2.price_1d).map
      (fun fp => (fp - perfAB2.price_at_post) / perfAB2.price_at_post * 100) ∧
    perfAB2.price_at_post = 10 ∧ perfAB2.price_1d = some (23 / 2) ∧
    perfAB2.return_1d = some 15 := by
  have hproc : processMention fetchTwoDays mAB1 = some perfAB2 := by
    simp [processMention, get_stock_data, fetchTwoDays, mAB1, closeOn,
      applyPeriod, acceptedMatch, closestMatch, matchStep, TIME_PERIODS,
      List.foldlM, setPrice, setReturn, Period.days, List.find?, perfAB2]
    norm_num
  obtain ⟨sd, hf, hall⟩ := return_formula_exact fetchTwoDays mAB1 perfAB2 hproc
  exact ⟨hproc, (hall .p1d).2, rfl, rfl, rfl⟩

/-- C5: a processable pair whose record resolved zero horizons is still
emitted into the returned sequence. -/
theorem zero_horizon_record_emitted
    (fetch : String → ℤ → ℤ → Option (List (ℤ × ℚ)))
    (mentions : List StockMention) (t : String) (d : ℤ)
    (m0 : StockMention) (perf : StockPerformance)
    (hfirst : mentions.find? (fun m => decide (pairOf m = (t, d))) = some m0)
    (hproc : processMention fetch m0 = some perf)
    (hnone : perf.return_1d = none ∧ perf.return_3d = none ∧
      perf.return_1w = none ∧ perf.return_2w = none ∧ perf.return_1m = none) :
    perf ∈ calculate_performance fetch mentions := by
  have h := calcGo_filter_first fetch t d mentions [] m0 (by simp) hfirst
  rw [hproc] at h
  have hmem : perf ∈ (calcGo fetch mentions []).filter
      (fun q => decide (perfPair q = (t, d))) := by
    rw [h]
    exact List.mem_singleton.mpr rfl
  exact (List.mem_filter.mp hmem).1

/-- Concrete instance of C5: a window with no future trading day leaves
every horizon unset, yet the record is returned. -/
theorem zero_horizon_record_instance :
    perfAB ∈ calculate_performance fetchOneDay [mAB1] :=
  zero_horizon_record_emitted fetchOneDay [mAB1] "AB" 0 mAB1 perfAB
    (by decide) (by decide) (by decide)

/-- C10: on every emitted record, each horizon's return field is set
exactly when its price field is set (the anchor price being a required
field of the record by construction). -/
theorem price_return_paired
    (fetch : String → ℤ → ℤ → Option (List (ℤ × ℚ)))
    (mentions : List StockMention) (perf : StockPerformance)
    (h : perf ∈ calculate_performance fetch mentions) :
    ((perf.return_1d).isSome ↔ (perf.price_1d).isSome) ∧
    ((perf.return_3d).isSome ↔ (perf.price_3d).isSome) ∧
    ((perf.return_1w).isSome ↔ (perf.price_1w).isSome) ∧
    ((perf.return_2w).isSome ↔ (perf.price_2w).isSome) ∧
    ((perf.return_1m).isSome ↔ (perf.price_1m).isSome) := by
  obtain ⟨m, _, hpm⟩ := calcGo_mem fetch mentions [] perf h
  obtain ⟨sd, a, pr, _, _, _, _, _, _, hps⟩ := processMention_spec hpm
  have key : ∀ p : Period,
      (retField perf p).isSome ↔ (priceField perf p).isSome := by
    intro p
    rw [(hps p).1, (hps p).2]
    cases horizonClose sd m.post_date.date p.days <;> simp
  exact ⟨key .p1d, key .p3d, key .p1w, key .p2w, key .p1m⟩

/-- Concrete instance of C10 on the emitted all-unset record. -/
theorem price_return_paired_instance :
    ((perfAB.return_1d).isSome ↔ (perfAB.price_1d).isSome) ∧
    ((perfAB.return_3d).isSome ↔ (perfAB.price_3d).isSome) ∧
    ((perfAB.return_1w).isSome ↔ (perfAB.price_1w).isSome) ∧
    ((perfAB.return_2w).isSome ↔ (perfAB.price_2w).isSome) ∧
    ((perfAB.return_1m).isSome ↔ (perfAB.price_1m).isSome) :=
  price_return_paired fetchOneDay [mAB1] perfAB (by decide)

/-- On a weakly sorted date list, the first date satisfying the
on-or-after test is minimal among all dates satisfying it. -/
lemma find?_ge_min {postDate : ℤ} :
    ∀ (dates : List ℤ), dates.Pairwise (fun a b => a ≤ b) →
      ∀ a, dates.find? (fun d => decide (postDate ≤ d)) = some a →
        a ∈ dates ∧ postDate ≤ a ∧ ∀ e ∈ dates, postDate ≤ e → a ≤ e := by
  intro dates
  induction dates with
  | nil => intro _ a h; cases h
  | cons x rest ih =>
    intro hp a h
    by_cases hx : postDate ≤ x
    · rw [List.find?_cons_of_pos _ (by simp [hx])] at h
      injection h with h
      subst h
      refine ⟨List.mem_cons_self _ _, hx, ?_⟩
      intro e he _
      rcases List.mem_cons.mp he with rfl | he
      · exact le_refl _
      · exact (List.pairwise_cons.mp hp).1 e he
    · rw [List.find?_cons_of_neg _ (by simp [hx])] at h
      obtain ⟨hmem, hge, hmin⟩ := ih (List.pairwise_cons.mp hp).2 a h
      refine ⟨List.mem_cons_of_mem _ hmem, hge, ?_⟩
      intro e he hpe
      rcases List.mem_cons.mp he with rfl | he
      · exact absurd hpe hx
      · exact hmin e he hpe

/-- A successful close lookup returns the close of a row of the series
carrying the looked-up date. -/
lemma closeOn_mem {sd : List (ℤ × ℚ)} {a : ℤ} {c : ℚ}
    (h : closeOn sd a = some c) : (a, c) ∈ sd := by
  unfold closeOn at h
  obtain ⟨row, hrow, hc⟩ := Option.map_eq_some'.mp h
  have hmem := List.mem_of_find?_eq_some hrow
  have hfst : row.1 = a := by
    have := List.find?_some hrow
    simpa using this
  have hra : row = (a, c) := by
    cases row
    simp only at hfst hc
    rw [hfst, hc]
  rw [← hra]
  exact hmem

/-- C3: with the fetched series sorted by date, every emitted record's
anchor price is the close of the earliest trading date on or after the
post's calendar day; and when every trading date precedes the post day,
the pair is skipped and no record keyed to it is ever emitted. -/
theorem anchor_price_correct
    (fetch : String → ℤ → ℤ → Option (List (ℤ × ℚ)))
    (m : StockMention) (stock_data : List (ℤ × ℚ))
    (hf : get_stock_data fetch m.ticker (m.post_date.date - 1)
      (m.post_date.date + 35) = some stock_data)
    (hsorted : (stock_data.map Prod.fst).Pairwise (fun a b => a ≤ b)) :
    (∀ perf, processMention fetch m = some perf →
      ∃ dte c, (dte, c) ∈ stock_data ∧ perf.price_at_post = c ∧
        m.post_date.date ≤ dte ∧
        ∀ e ∈ stock_data.map Prod.fst, m.post_date.date ≤ e → dte ≤ e) ∧
    ((∀ e ∈ stock_data.map Prod.fst, e < m.post_date.date) →
      processMention fetch m = none ∧
      ∀ mentions perf, perf ∈ calculate_performance fetch mentions →
        perfPair perf ≠ pairOf m) := by
  constructor
  · intro perf hproc
    obtain ⟨sd2, anchor, price, hf2, hanchor, hprice, _, _, hpr, _⟩ :=
      processMention_spec hproc
    rw [hf] at hf2
    injection hf2 with hf2
    subst hf2
    obtain ⟨hmem, hge, hmin⟩ := find?_ge_min _ hsorted anchor hanchor
    exact ⟨anchor, price, closeOn_mem hprice, hpr, hge, hmin⟩
  · intro hall
    have hnone : ∀ (m2 : StockMention), pairOf m2 = pairOf m →
        processMention fetch m2 = none := by
      intro m2 hpair
      have ht : m2.ticker = m.ticker := congrArg Prod.fst hpair
      have hd : m2.post_date.date = m.post_date.date :=
        congrArg Prod.snd hpair
      cases hproc : processMention fetch m2 with
      | none => rfl
      | some perf =>
        obtain ⟨sd2, anchor, price, hf2, hanchor, _⟩ :=
          processMention_spec hproc
        rw [ht, hd, hf] at hf2
        injection hf2 with hf2
        subst hf2
        have h1 := List.find?_some hanchor
        have h2 := List.mem_of_find?_eq_some hanchor
        rw [hd] at h1
        have := hall anchor h2
        simp only [decide_eq_true_eq] at h1
        omega
    constructor
    · exact hnone m rfl
    · intro mentions perf hperf hpp
      obtain ⟨m2, _, hpm2⟩ := calcGo_mem fetch mentions [] perf hperf
      have : pairOf m2 = pairOf m := by
        rw [← processMention_pair hpm2, hpp]
      rw [hnone m2 this] at hpm2
      cases hpm2

/-- Concrete instance of C3: under a window ending before the post day,
the mention of CD is skipped, and the batch containing another mention
emits no record keyed to CD. -/
theorem anchor_price_instance :
    processMention fetchPastDays mCD = none ∧
    perfPair perfAB ≠ pairOf mCD :=
  ⟨((anchor_price_correct fetchPastDays mCD [(-1, 9), (0, 10)]
      (by decide) (by decide)).2 (by decide)).1,
   ((anchor_price_correct fetchPastDays mCD [(-1, 9), (0, 10)]
      (by decide) (by decide)).2 (by decide)).2 [mAB1] perfAB (by decide)⟩

/-- C6 counterexample: on rows whose one-day returns are exactly
5, -5, 15, -15, 25, the aggregation computes a win rate of 60 percent
(three of five returns are strictly positive), not the 40 percent the
specification asserts. -/
theorem aggregation_win_rate_counterexample :
    ∃ total f, analyze_profitability rowsR = some (total, f) ∧
      dropna (rowsR.map (fun r => returnCol r Period.p1d)) =
        [5, -5, 15, -15, 25] ∧
      f Period.p1d = some (periodStats [5, -5, 15, -15, 25]) ∧
      (periodStats [5, -5, 15, -15, 25]).win_rate = 60 ∧
      ¬ (periodStats [5, -5, 15, -15, 25]).win_rate = 40 := by
  refine ⟨rowsR.length, _, rfl, by rfl, by rfl, ?_, ?_⟩
  · show ((List.filter _ [5, -5, 15, -15, 25]).length : ℚ) / _ * 100 = 60
    norm_num [List.filter]
  · show ¬ ((List.filter _ [5, -5, 15, -15, 25]).length : ℚ) / _ * 100 = 40
    norm_num [List.filter]

/-- C6 amended: for a horizon whose non-null returns are exactly
5, -5, 15, -15, 25, the aggregation reports win_rate = 60 percent (the
fraction of returns strictly above zero), two returns above 10, one
return below -10, and a mean of 5. -/
theorem aggregation_stats_correct (data : List PerfRow) (p : Period)
    (h : dropna (data.map (fun r => returnCol r p)) = [5, -5, 15, -15, 25]) :
    ∃ total f, analyze_profitability data = some (total, f) ∧
      total = data.length ∧
      ∃ s, f p = some s ∧ s.win_rate = 60 ∧ s.returns_over_10pct = 2 ∧
        s.returns_under_minus10pct = 1 ∧ s.mean_return = 5 := by
  have hne : ¬ data.isEmpty = true := by
    intro hd
    rw [List.isEmpty_iff] at hd
    subst hd
    simp [dropna] at h
  have heq : analyze_profitability data = some (data.length, fun q =>
      let valid := dropna (data.map (fun r => returnCol r q))
      if valid.isEmpty then none else some (periodStats valid)) := by
    unfold analyze_profitability
    rw [if_neg hne]
  refine ⟨data.length, _, heq, rfl, ?_⟩
  refine ⟨periodStats [5, -5, 15, -15, 25], ?_, ?_, ?_, ?_, ?_⟩
  · dsimp only
    rw [h]
    rfl
  · show ((List.filter _ [5, -5, 15, -15, 25]).length : ℚ) / _ * 100 = 60
    norm_num [List.filter]
  · show (List.filter _ [5, -5, 15, -15, 25]).length = 2
    norm_num [List.filter]
  · show (List.filter _ [5, -5, 15, -15, 25]).length = 1
    norm_num [List.filter]
  · show ([5, -5, 15, -15, 25] : List ℚ).sum / _ = 5
    norm_num

/-- Concrete instance of the amended C6 on explicit rows. -/
theorem aggregation_stats_instance :
    ∃ total f, analyze_profitability rowsR = some (total, f) ∧
      total = rowsR.length ∧
      ∃ s, f Period.p1d = some s ∧ s.win_rate = 60 ∧
        s.returns_over_10pct = 2 ∧ s.returns_under_minus10pct = 1 ∧
        s.mean_return = 5 :=
  aggregation_stats_correct rowsR Period.p1d (by rfl)

/-- C7 counterexample: a provider whose metadata mapping holds exactly
the one recognized key symbol, with a non-empty 5-day history and no
errors, defeats the claimed acceptance condition: every conjunct of the
claimed right-hand side holds, yet validation rejects. -/
theorem validate_iff_counterexample :
    ¬ (validate_ticker providerThin ("AB") = true ↔
      (∃ info, providerThin.info ("AB") = .ok info ∧
        requiredFields.any (fun f => info.contains f) = true) ∧
      (∃ hist, providerThin.hist5d ("AB") = .ok hist ∧ hist ≠ [])) := by
  intro hiff
  have h1 : validate_ticker providerThin ("AB") = true :=
    hiff.mpr ⟨⟨["symbol"], rfl, by decide⟩, ⟨[(0, 1)], rfl, by decide⟩⟩
  have h2 : validate_ticker providerThin ("AB") = false := by decide
  rw [h1] at h2
  cases h2

/-- C7 amended: validation accepts exactly when neither provider query
raises, the metadata has more than one entry and contains a recognized
field, and the trailing 5-day history is non-empty; rejection is always
a returned False, never a propagated exception. -/
theorem validate_ticker_characterization (p : Provider) (t : String) :
    validate_ticker p t = true ↔
      ∃ info hist, p.info t = .ok info ∧ 1 < info.length ∧
        requiredFields.any (fun f => info.contains f) = true ∧
        p.hist5d t = .ok hist ∧ hist ≠ [] := by
  unfold validate_ticker
  cases hi : p.info t with
  | err =>
    simp only [Bool.false_eq_true, false_iff]
    rintro ⟨info, hist, heq, _⟩
    cases heq
  | ok info =>
    dsimp only
    by_cases hlen : info.length ≤ 1
    · rw [if_pos hlen]
      simp only [Bool.false_eq_true, false_iff]
      rintro ⟨info2, hist, heq, hgt, _⟩
      injection heq with heq
      subst heq
      omega
    · rw [if_neg hlen]
      cases hh : p.hist5d t with
      | err =>
        dsimp only
        simp only [Bool.false_eq_true, false_iff]
        rintro ⟨info2, hist, _, _, _, heq2, _⟩
        cases heq2
      | ok hist =>
        dsimp only
        constructor
        · intro h
          rw [Bool.and_eq_true] at h
          refine ⟨info, hist, rfl, by omega, h.1, rfl, ?_⟩
          have := h.2
          rw [Bool.not_eq_true'] at this
          intro he
          rw [he] at this
          cases this
        · rintro ⟨info2, hist2, heq, _, hany, heq2, hne⟩
          injection heq with heq
          injection heq2 with heq2
          subst heq
          subst heq2
          rw [Bool.and_eq_true]
          refine ⟨hany, ?_⟩
          rw [Bool.not_eq_true']
          cases hist with
          | nil => exact absurd rfl hne
          | cons a l => rfl

/-- Concrete instance of the amended C7: a rich provider response is
accepted. -/
theorem validate_ticker_instance :
    validate_ticker providerRich ("AB") = true :=
  (validate_ticker_characterization providerRich ("AB")).mpr
    ⟨["symbol", "longName"], [(0, 1)], rfl, by decide, by decide, rfl,
      by decide⟩

/-- A successful orElse comes from its first or its second arm. -/
lemma orElse_eq_some {α : Type} {a : Option α} {f : Unit → Option α} {v : α}
    (h : a.orElse f = some v) : a = some v ∨ f () = some v := by
  cases a with
  | none => exact Or.inr h
  | some x => exact Or.inl h

/-- A failed orElse fails in both arms. -/
lemma orElse_eq_none {α : Type} {a : Option α} {f : Unit → Option α}
    (h : a.orElse f = none) : a = none ∧ f () = none := by
  cases a with
  | none => exact ⟨rfl, h⟩
  | some x => cases h

/-- What a successful fixed-length match means: that many uppercase
letters, then a word boundary. -/
lemma tryLen_sound : ∀ (n : ℕ) (cs t r : List Char),
    tryLen n cs = some (t, r) →
    cs = t ++ r ∧ t.length = n ∧ (∀ c ∈ t, isUpperAlpha c = true) ∧
      boundaryAt r = true := by
  intro n
  induction n with
  | zero =>
    intro cs t r h
    unfold tryLen at h
    split at h
    · rename_i hb
      injection h with h
      injection h with h1 h2
      subst h1
      subst h2
      exact ⟨rfl, rfl, by simp, hb⟩
    · cases h
  | succ n ih =>
    intro cs t r h
    cases cs with
    | nil => cases h
    | cons c cs2 =>
      unfold tryLen at h
      split at h
      · rename_i hup
        obtain ⟨⟨t2, r2⟩, h2, heq⟩ := Option.map_eq_some'.mp h
        obtain ⟨hcs, hlen, hall, hb⟩ := ih cs2 t2 r2 h2
        injection heq with h1 h2b
        subst h1
        subst h2b
        refine ⟨by rw [hcs]; rfl, by simp [hlen], ?_, hb⟩
        intro x hx
        rcases List.mem_cons.mp hx with rfl | hx
        · exact hup
        · exact hall x hx
      · cases h

/-- Conversely, a run of uppercase letters before a boundary is matched
at its own length. -/
lemma tryLen_complete : ∀ (t r : List Char),
    (∀ c ∈ t, isUpperAlpha c = true) → boundaryAt r = true →
    tryLen t.length (t ++ r) = some (t, r) := by
  intro t
  induction t with
  | nil =>
    intro r _ hb
    show tryLen 0 r = some ([], r)
    unfold tryLen
    rw [if_pos hb]
  | cons c t2 ih =>
    intro r hall hb
    have hup : isUpperAlpha c = true := hall c (List.mem_cons_self _ _)
    show tryLen (t2.length + 1) (c :: (t2 ++ r)) = _
    unfold tryLen
    rw [if_pos hup,
      ih r (fun x hx => hall x (List.mem_cons_of_mem _ hx)) hb]
    rfl

/-- What a successful greedy match after a dollar sign means. -/
lemma matchAtDollar_sound {cs t r : List Char}
    (h : matchAtDollar cs = some (t, r)) :
    cs = t ++ r ∧ 1 ≤ t.length ∧ t.length ≤ 5 ∧
      (∀ c ∈ t, isUpperAlpha c = true) ∧ boundaryAt r = true := by
  unfold matchAtDollar at h
  rcases orElse_eq_some h with h5 | h
  · obtain ⟨hcs, hlen, hall, hb⟩ := tryLen_sound 5 cs t r h5
    exact ⟨hcs, by omega, by omega, hall, hb⟩
  rcases orElse_eq_some h with h4 | h
  · obtain ⟨hcs, hlen, hall, hb⟩ := tryLen_sound 4 cs t r h4
    exact ⟨hcs, by omega, by omega, hall, hb⟩
  rcases orElse_eq_some h with h3 | h
  · obtain ⟨hcs, hlen, hall, hb⟩ := tryLen_sound 3 cs t r h3
    exact ⟨hcs, by omega, by omega, hall, hb⟩
  rcases orElse_eq_some h with h2 | h
  · obtain ⟨hcs, hlen, hall, hb⟩ := tryLen_sound 2 cs t r h2
    exact ⟨hcs, by omega, by omega, hall, hb⟩
  · obtain ⟨hcs, hlen, hall, hb⟩ := tryLen_sound 1 cs t r h
    exact ⟨hcs, by omega, by omega, hall, hb⟩

/-- A failed greedy match admits no fixed-length match of one to five
letters. -/
lemma matchAtDollar_eq_none {cs : List Char} (h : matchAtDollar cs = none) :
    ∀ n, 1 ≤ n → n ≤ 5 → tryLen n cs = none := by
  unfold matchAtDollar at h
  obtain ⟨h5, h⟩ := orElse_eq_none h
  obtain ⟨h4, h⟩ := orElse_eq_none h
  obtain ⟨h3, h⟩ := orElse_eq_none h
  obtain ⟨h2, h1⟩ := orElse_eq_none h
  intro n hn1 hn5
  interval_cases n
  · exact h1
  · exact h2
  · exact h3
  · exact h4
  · exact h5

/-- A non-empty scan result exhibits a ticker-shaped occurrence. -/
lemma findallAux_shaped : ∀ (fuel : ℕ) (cs : List Char),
    cs.length ≤ fuel → findallAux fuel cs ≠ [] → tickerShaped cs := by
  intro fuel
  induction fuel with
  | zero =>
    intro cs hlen h
    exact absurd rfl h
  | succ fuel ih =>
    intro cs hlen h
    cases cs with
    | nil => exact absurd rfl h
    | cons c cs2 =>
      have hlen2 : cs2.length ≤ fuel := by
        simp only [List.length_cons] at hlen
        omega
      unfold findallAux at h
      by_cases hc : c = '$'
      · rw [if_pos hc] at h
        cases hm : matchAtDollar cs2 with
        | some pr =>
          obtain ⟨t0, r0⟩ := pr
          obtain ⟨hcs, h1, h5, hall, hb⟩ := matchAtDollar_sound hm
          refine ⟨[], t0, r0, ?_, ?_, h5, hall, hb⟩
          · rw [hc, hcs]
            rfl
          · intro hemp
            rw [hemp] at h1
            simp at h1
        | none =>
          rw [hm] at h
          obtain ⟨pre, t, r, hcs, hne, h5, hall, hb⟩ := ih cs2 hlen2 h
          exact ⟨c :: pre, t, r, by rw [hcs]; rfl, hne, h5, hall, hb⟩
      · rw [if_neg hc] at h
        obtain ⟨pre, t, r, hcs, hne, h5, hall, hb⟩ := ih cs2 hlen2 h
        exact ⟨c :: pre, t, r, by rw [hcs]; rfl, hne, h5, hall, hb⟩

/-- A ticker-shaped occurrence guarantees a non-empty scan result. -/
lemma shaped_findallAux : ∀ (fuel : ℕ) (cs : List Char),
    cs.length ≤ fuel → tickerShaped cs → findallAux fuel cs ≠ [] := by
  intro fuel
  induction fuel with
  | zero =>
    intro cs hlen hs
    obtain ⟨pre, t, r, hcs, _⟩ := hs
    rw [hcs] at hlen
    simp at hlen
  | succ fuel ih =>
    intro cs hlen hs
    obtain ⟨pre, t, r, hcs, hne, h5, hall, hb⟩ := hs
    subst hcs
    cases pre with
    | nil =>
      show findallAux (fuel + 1) ('$' :: (t ++ r)) ≠ []
      unfold findallAux
      rw [if_pos rfl]
      cases hm : matchAtDollar (t ++ r) with
      | some pr => exact List.cons_ne_nil _ _
      | none =>
        have h1 : 1 ≤ t.length := by
          cases t with
          | nil => exact absurd rfl hne
          | cons a l => simp
        have := matchAtDollar_eq_none hm t.length h1 h5
        rw [tryLen_complete t r hall hb] at this
        cases this
    | cons c pre2 =>
      have hsub : tickerShaped (pre2 ++ '$' :: (t ++ r)) :=
        ⟨pre2, t, r, rfl, hne, h5, hall, hb⟩
      have hlen2 : (pre2 ++ '$' :: (t ++ r)).length ≤ fuel := by
        simp only [List.length_append, List.length_cons] at hlen ⊢
        omega
      show findallAux (fuel + 1) (c :: (pre2 ++ '$' :: (t ++ r))) ≠ []
      unfold findallAux
      by_cases hc : c = '$'
      · rw [if_pos hc]
        cases hm : matchAtDollar (pre2 ++ '$' :: (t ++ r)) with
        | some pr => exact List.cons_ne_nil _ _
        | none => exact ih _ hlen2 hsub
      · rw [if_neg hc]
        exact ih _ hlen2 hsub

/-- C8: a text with no dollar-prefixed one-to-five-letter token after
upper-casing extracts nothing and performs no validation calls. -/
theorem no_dollar_token_empty (p : Provider) (text : String)
    (h : ¬ tickerShaped (text.toList.map Char.toUpper)) :
    extract_tickers_from_text p text = ([], 0) := by
  have hempty : findall (text.toList.map Char.toUpper) = [] := by
    by_contra hne
    exact h (findallAux_shaped _ _ (le_refl _) hne)
  unfold extract_tickers_from_text
  rw [hempty]
  rfl

/-- Concrete instance of C8: a text whose only dollar sign precedes a
seven-letter run has no ticker-shaped token, so extraction is empty with
zero validation calls. -/
theorem no_dollar_token_instance :
    extract_tickers_from_text providerDown ("no cash tag, $TOOLONG aside")
      = ([], 0) :=
  no_dollar_token_empty providerDown ("no cash tag, $TOOLONG aside")
    (fun hs => shaped_findallAux _ _ (le_refl _) hs (by decide))

/-- C9: a sort mode outside hot, new, rising, top makes fetch_posts
raise the ValueError to the caller at once: the result is the error and
carries no mention records, so no partial work is observable. -/
theorem invalid_sort_raises (p : Provider) (sub : Subreddit) (limit : ℕ)
    (use_title_only : Bool) (sort_by time_filter : String)
    (h : sort_by ≠ "hot" ∧ sort_by ≠ "new" ∧ sort_by ≠ "rising" ∧
      sort_by ≠ "top") :
    fetch_posts p sub limit use_title_only sort_by time_filter =
      .error ("Invalid sort option: " ++ sort_by) ∧
    ∀ mentions, fetch_posts p sub limit use_title_only sort_by time_filter ≠
      .ok mentions := by
  have he : fetch_posts p sub limit use_title_only sort_by time_filter =
      .error ("Invalid sort option: " ++ sort_by) := by
    unfold fetch_posts
    rw [if_neg h.1, if_neg h.2.1, if_neg h.2.2.1, if_neg h.2.2.2]
  refine ⟨he, ?_⟩
  intro mentions hok
  rw [he] at hok
  cases hok

/-- Concrete instance of C9 on the unsupported sort mode best. -/
theorem invalid_sort_raises_instance :
    fetch_posts providerDown subEmpty 10 true ("best") ("month") =
      .error ("Invalid sort option: best") ∧
    fetch_posts providerDown subEmpty 10 true ("best") ("month") ≠
      .ok [] :=
  ⟨(invalid_sort_raises providerDown subEmpty 10 true ("best") ("month")
      (by refine ⟨?_, ?_, ?_, ?_⟩ <;> decide)).1,
   (invalid_sort_raises providerDown subEmpty 10 true ("best") ("month")
      (by refine ⟨?_, ?_, ?_, ?_⟩ <;> decide)).2 []⟩

end RedditStocks
